import Mathlib

/-!
Formal model of the intelligent OCR correction pipeline implemented in
`src/backend/model/intelligent_corrector.py`.

The pipeline is a pure computation over strings, driven by external
capabilities (a spell-check dictionary, a fuzzy string matcher, a word
frequency table, a masked-language model).  Those capabilities are modelled as
oracle functions; calls that may raise a Python exception are given
`Except String` result types, and the `try`/`except` structure of the source
is mirrored by explicit matches on those results.  Python strings are modelled
as Lean `String`s (ASCII-faithful: `lower`, `upper`, `isalpha`, `isupper`
agree with Python on ASCII input, which is the domain of this corrector).
Python `float` arithmetic for the confidence score is modelled with exact
rationals `ℚ`; the computed values are small exact quotients where the float
and rational computations agree.
-/

/-- The characters Python's `str.split()` / `str.strip()` treat as whitespace
(ASCII): space, tab, newline, carriage return, vertical tab, form feed. -/
def pyIsSpaceChar (c : Char) : Bool :=
  c = ' ' ∨ c = '\t' ∨ c = '\n' ∨ c = '\r' ∨ c = Char.ofNat 11 ∨ c = Char.ofNat 12

/-- Worker for `pySplit`: scans the character list, accumulating the current
token (reversed) in `acc`; whitespace runs end tokens and are discarded. -/
def splitWsGo : List Char → List Char → List String
  | [], acc => if acc = [] then [] else [String.mk acc.reverse]
  | c :: cs, acc =>
    if pyIsSpaceChar c then
      if acc = [] then splitWsGo cs []
      else String.mk acc.reverse :: splitWsGo cs []
    else splitWsGo cs (c :: acc)

/-- Python `text.split()` (no argument): split on runs of whitespace,
discarding empty pieces. -/
def pySplit (s : String) : List String :=
  splitWsGo s.data []

/-- Worker for `pySplitDot`. -/
def splitDotGo : List Char → List Char → List String
  | [], acc => [String.mk acc.reverse]
  | c :: cs, acc =>
    if c = '.' then String.mk acc.reverse :: splitDotGo cs []
    else splitDotGo cs (c :: acc)

/-- Python `text.split('.')`: split on every dot, keeping empty pieces. -/
def pySplitDot (s : String) : List String :=
  splitDotGo s.data []

/-- Python `text.strip()`: drop leading and trailing whitespace. -/
def pyStrip (s : String) : String :=
  String.mk (((s.data.dropWhile pyIsSpaceChar).reverse.dropWhile pyIsSpaceChar).reverse)

/-- Python `' '.join(words)`. -/
def joinSp : List String → String
  | [] => ""
  | [w] => w
  | w :: ws => w ++ " " ++ joinSp ws

/-- Python `'. '.join(sentences)`. -/
def joinDotSp : List String → String
  | [] => ""
  | [s] => s
  | s :: ss => s ++ ". " ++ joinDotSp ss

/-- Python `max(a, b)` on numbers: returns `b` when `b > a`, else `a`. -/
def pyMax (a b : ℚ) : ℚ :=
  if a < b then b else a

/-- Python `list(set(xs))`: the distinct elements (set iteration order is
unspecified in Python; modelled as first-occurrence order). -/
def pySetGo : List String → List String → List String
  | [], _ => []
  | x :: xs, seen =>
    if seen.contains x then pySetGo xs seen else x :: pySetGo xs (x :: seen)

/-- Python `list(set(xs))`. -/
def pySetList (l : List String) : List String :=
  pySetGo l []

/-- Python `str.lower()` (ASCII). -/
def pyLower (s : String) : String :=
  String.mk (s.data.map Char.toLower)

/-- Python `str.upper()` (ASCII). -/
def pyUpper (s : String) : String :=
  String.mk (s.data.map Char.toUpper)

/-- Python `str.capitalize()`: first character upper-cased, the rest
lower-cased. -/
def pyCapitalize (s : String) : String :=
  match s.data with
  | [] => ""
  | c :: cs => String.mk (c.toUpper :: cs.map Char.toLower)

/-- Python `str.isupper()`: at least one cased character and no lower-case
character (ASCII: cased = alphabetic). -/
def pyIsUpperStr (s : String) : Bool :=
  s.data.any (fun c => c.isAlpha) && s.data.all (fun c => !c.isLower)

/-- Python `str.isalpha()`: non-empty and all characters alphabetic. -/
def pyIsAlphaStr (s : String) : Bool :=
  !s.data.isEmpty && s.data.all (fun c => c.isAlpha)

/-- True when the string is non-empty and its first character is upper-case
(Python `s[0].isupper()` on a non-empty string). -/
def firstCharUpper (s : String) : Bool :=
  match s.data with
  | [] => false
  | c :: _ => c.isUpper

/-- Python `sub in s`: substring containment. -/
def containsSub (pat : List Char) : List Char → Bool
  | [] => pat.isEmpty
  | c :: cs => pat.isPrefixOf (c :: cs) || containsSub pat cs

/-- Worker for `replaceAll`, structurally recursive on a fuel bound that
dominates the length of the scanned list. -/
def replaceAllGo (pat rep : List Char) : Nat → List Char → List Char
  | 0, l => l
  | _ + 1, [] => []
  | n + 1, c :: cs =>
    if pat ≠ [] ∧ pat.isPrefixOf (c :: cs) then
      rep ++ replaceAllGo pat rep n (List.drop (pat.length - 1) cs)
    else
      c :: replaceAllGo pat rep n cs

/-- Python `s.replace(pat, rep)`: replace every (leftmost, non-overlapping)
occurrence of the non-empty pattern `pat` by `rep`. -/
def replaceAll (pat rep l : List Char) : List Char :=
  replaceAllGo pat rep l.length l

/-- Python `s.endswith(c)` for a single character. -/
def pyEndsWith (s : String) (c : Char) : Bool :=
  match s.data.getLast? with
  | some d => d = c
  | none => false

/-- The non-alphabetic characters of a token, in order (the `punctuation`
computed by `preserve_case_and_punctuation`). -/
def punctOf (w : String) : String :=
  String.mk (w.data.filter (fun c => !c.isAlpha))

/-- `clean_word` of the spell-check stage:
`''.join(c for c in word if c.isalpha()).lower()`. -/
def spellClean (word : String) : String :=
  pyLower (String.mk (word.data.filter (fun c => c.isAlpha)))

/-- `clean_word` of the fuzzy stage:
`''.join(c for c in word.lower() if c.isalpha())`. -/
def fuzzyClean (word : String) : String :=
  String.mk ((pyLower word).data.filter (fun c => c.isAlpha))

/-- One correction record (the per-change dict built by the stages).
Stage-specific metadata fields are optional; each stage fills its own. -/
structure CorrectionRecord where
  position : Nat
  original : String
  corrected : String
  method : String
  pattern : Option String
  suggestions : Option (List String)
  similarity_score : Option Nat
  confidence : Option ℚ
  alternatives : Option (List String)
deriving DecidableEq

/-- The spell-check dictionary capability (`self.spell_checker`):
membership testing (`w in self.spell_checker`) and candidate lookup
(`self.spell_checker.candidates(w)`, which calls an external library and may
raise — hence `Except`). -/
structure SpellChecker where
  contains : String → Bool
  candidates : String → Except String (List String)

/-- The fuzzy matching capability: `process.extractOne(query, choices)`
returning the best match and an integer similarity score 0–100; the external
call may raise. -/
def FuzzyOracle : Type :=
  String → List String → Except String (String × Nat)

/-- One prediction returned by the mask-filling model: the predicted token
and its model score. -/
structure Prediction where
  token_str : String
  score : ℚ
deriving DecidableEq

/-- The masked-language-model capability (`self.mask_filler(sentence, top_k=3)`). -/
def MaskOracle : Type :=
  String → Except String (List Prediction)

/-- The word-frequency capability (`word_frequency(w, 'en')`). -/
def FreqOracle : Type :=
  String → Except String ℚ

/-- The capability set determined at initialization (`setup_correction_tools`):
each optional external tool is either loaded or absent. -/
structure Caps where
  spell_checker : Option SpellChecker
  fuzzy : Option FuzzyOracle
  wordfreq : Option FreqOracle
  mask_filler : Option MaskOracle

/-- Result dict of `comprehensive_correction`: either a success payload or a
failure indicator with an error message (`{'success': False, 'error': e}`).
`processing_time` is wall-clock time and is not modelled. -/
inductive RunResult where
  | ok (corrected_text : String) (corrections : List CorrectionRecord)
       (confidence : ℚ) (methods_used : List String)
  | err (error : String)
deriving DecidableEq

/-- `preserve_case_and_punctuation(original_word, corrected_word)`.
The Python body runs under `try`/`except`; the only statement that can raise
is `original_word[0]` on an empty `original_word` (IndexError), in which case
the `except` returns the bare replacement.  Note the `if`/`elif`: the
all-upper branch is reached only when the first character is not upper-case. -/
def preserve_case_and_punctuation (original_word corrected_word : String) : String :=
  match original_word.data with
  | [] => corrected_word
  | c :: _ =>
    let result := corrected_word
    let result :=
      if c.isUpper then pyCapitalize result
      else if pyIsUpperStr original_word then pyUpper result
      else result
    let punctuation := punctOf original_word
    if punctuation ≠ "" then result ++ punctuation else result

/-- The ordered OCR confusion-pattern table of `analyze_ocr_errors`
(Python dicts preserve insertion order). -/
def ocr_patterns : List (String × String) :=
  [("rn", "m"), ("cl", "d"), ("li", "h"), ("vv", "w"), ("nn", "m"),
   ("1", "l"), ("0", "O"), ("5", "S"), ("8", "B"), ("|", "I"),
   ("ii", "n"), ("oi", "a"), ("ai", "w")]

/-- Inner loop of `analyze_ocr_errors` for one token: try each pattern in
order; if the pattern occurs in the lower-cased token, build the candidate by
replacing all its occurrences in the lower-cased token; accept (and stop, the
Python `break`) only when a spell checker is present and knows the candidate.
Returns the accepted `(new_word, pattern, replacement)`, if any.
(`corrected_word` in the source still equals `word` at every iteration,
since acceptance breaks out of the loop.) -/
def tryPatterns (sc? : Option SpellChecker) (word : String) :
    List (String × String) → Option (String × String × String)
  | [] => none
  | (pattern, replacement) :: rest =>
    if containsSub pattern.data (pyLower word).data then
      let new_word := String.mk (replaceAll pattern.data replacement.data (pyLower word).data)
      match sc? with
      | some sc =>
        if sc.contains new_word then some (new_word, pattern, replacement)
        else tryPatterns sc? word rest
      | none => tryPatterns sc? word rest
    else tryPatterns sc? word rest

/-- Token loop of `analyze_ocr_errors` (`for i, word in enumerate(words)`). -/
def analyzeLoop (sc? : Option SpellChecker) : Nat → List String → List CorrectionRecord
  | _, [] => []
  | i, word :: rest =>
    match tryPatterns sc? word ocr_patterns with
    | some (new_word, pattern, replacement) =>
      ⟨i, word, new_word, "pattern_matching",
        some (pattern ++ " → " ++ replacement), none, none, none, none⟩ ::
        analyzeLoop sc? (i + 1) rest
    | none => analyzeLoop sc? (i + 1) rest

/-- `analyze_ocr_errors(text)`: splits on whitespace and scans each token for
confusion patterns.  Returns only the record list — the rewritten tokens are
not returned and the input text is not modified. -/
def analyze_ocr_errors (sc? : Option SpellChecker) (text : String) : List CorrectionRecord :=
  analyzeLoop sc? 0 (pySplit text)

/-- Generic per-token stage loop shared by the spell-check and fuzzy stages:
both stages iterate `for i, word in enumerate(words)`, compute a per-token
result (possibly with a correction record), and collect the output tokens and
records in order.  An uncaught per-token exception aborts the loop. -/
def stageLoop (step : Nat → String → Except String (String × Option CorrectionRecord)) :
    Nat → List String → Except String (List String × List CorrectionRecord)
  | _, [] => .ok ([], [])
  | i, word :: rest =>
    match step i word with
    | .error e => .error e
    | .ok (outWord, rec?) =>
      match stageLoop step (i + 1) rest with
      | .error e => .error e
      | .ok (ws, rs) => .ok (outWord :: ws, rec?.toList ++ rs)

/-- Per-token body of `spell_check_correction`: clean the token; if the clean
form is non-empty and unknown, ask the dictionary for candidates (may raise);
with a non-empty candidate set take the first candidate, reapply
case/punctuation, and emit a record carrying the first 3 suggestions. -/
def spellToken (sc : SpellChecker) (i : Nat) (word : String) :
    Except String (String × Option CorrectionRecord) :=
  let clean_word := spellClean word
  if clean_word ≠ "" ∧ sc.contains clean_word = false then
    match sc.candidates clean_word with
    | .error e => .error e
    | .ok [] => .ok (word, none)
    | .ok (best :: restS) =>
      let corrected_word := preserve_case_and_punctuation word best
      .ok (corrected_word,
        some ⟨i, word, corrected_word, "spell_check", none,
              some ((best :: restS).take 3), none, none, none⟩)
  else .ok (word, none)

/-- `spell_check_correction(text)`: returns the input unchanged with no
records when no dictionary is loaded; otherwise processes every
whitespace-token and joins the results with single spaces.  A dictionary
exception propagates (the source has no `try` here). -/
def spell_check_correction (sc? : Option SpellChecker) (text : String) :
    Except String (String × List CorrectionRecord) :=
  match sc? with
  | none => .ok (text, [])
  | some sc =>
    match stageLoop (spellToken sc) 0 (pySplit text) with
    | .error e => .error e
    | .ok (corrected_words, corrections) => .ok (joinSp corrected_words, corrections)

/-- The fixed reference vocabulary `common_words` of `fuzzy_word_correction`. -/
def common_words : List String :=
  ["the", "be", "to", "of", "and", "a", "in", "that", "have", "i", "it", "for",
   "not", "on", "with", "he", "as", "you", "do", "at",
   "this", "but", "his", "by", "from", "they", "she", "or", "an", "will", "my",
   "one", "all", "would", "there", "their", "what",
   "so", "up", "out", "if", "about", "who", "get", "which", "go", "me", "when",
   "make", "can", "like", "time", "no", "just",
   "him", "know", "take", "people", "into", "year", "your", "good", "some",
   "could", "them", "see", "other", "than", "then",
   "now", "look", "only", "come", "its", "over", "think", "also", "back",
   "after", "use", "two", "how", "our", "work",
   "first", "well", "way", "even", "new", "want", "because", "any", "these",
   "give", "day", "most", "us",
   "dear", "future", "worry", "things", "happen", "meant", "stop", "comparing",
   "past", "present", "left", "behind",
   "reason", "forward", "confidently", "developing", "right", "keep", "smiling",
   "small", "worries", "concerns",
   "forgotten", "years", "time", "thankful", "blessings", "grace", "life",
   "each", "seems", "falling", "apart",
   "takes", "destruction", "build", "tell", "people", "love", "matter", "many",
   "grateful", "placed",
   "atmosphere", "seek", "knowledge", "truths", "learn", "invest", "moments",
   "memories", "wrong", "nice",
   "house", "clothes", "made", "trips", "taken", "where", "went", "those",
   "hold", "most", "above",
   "strive", "yourself", "find", "really", "person", "never", "stand",
   "someone", "else", "ground",
   "hill", "start", "look", "around", "roots", "have", "seen", "pounds",
   "lighter", "better", "job",
   "place", "someday", "moment", "live", "regrets", "choices", "yours",
   "sincerely"]

/-- Per-token body of `fuzzy_word_correction`: only tokens whose cleaned form
has length > 2 are checked; the best vocabulary match is accepted exactly when
its score is strictly greater than 85 and it differs from the cleaned token. -/
def fuzzyStep (fo : FuzzyOracle) (i : Nat) (word : String) :
    Except String (String × Option CorrectionRecord) :=
  let clean_word := fuzzyClean word
  if clean_word.length > 2 then
    match fo clean_word common_words with
    | .error e => .error e
    | .ok (best_match, score) =>
      if score > 85 ∧ best_match ≠ clean_word then
        let corrected_word := preserve_case_and_punctuation word best_match
        .ok (corrected_word,
          some ⟨i, word, corrected_word, "fuzzy_matching", none, none,
                some score, none, none⟩)
      else .ok (word, none)
  else .ok (word, none)

/-- `fuzzy_word_correction(text)`: returns the input unchanged with no records
when the fuzzy capability is absent; otherwise processes every token and joins
with single spaces.  The whole loop runs under `try`; any exception from the
matcher degrades the stage to `(text, [])`. -/
def fuzzy_word_correction (fz? : Option FuzzyOracle) (text : String) :
    String × List CorrectionRecord :=
  match fz? with
  | none => (text, [])
  | some fo =>
    match stageLoop (fuzzyStep fo) 0 (pySplit text) with
    | .ok (corrected_words, corrections) => (joinSp corrected_words, corrections)
    | .error _ => (text, [])

/-- Token loop of `context_based_correction` for one sentence
(`for i, word in enumerate(words)` with in-place update `words[i] = ...`).
`words` is the working token list (mutated on acceptance), `i` the loop index,
`corrected_sentence` the current sentence text, `recs` the records so far.
The word-frequency lookup runs under a bare `except: continue`; the
mask-filler call under `except Exception: continue` — both skip the token. -/
def contextgo (wf? : Option FreqOracle) (mf : MaskOracle) (words : List String)
    (i : Nat) (corrected_sentence : String) (recs : List CorrectionRecord) :
    List String × String × List CorrectionRecord :=
  if h : i < words.length then
    let word := words.get ⟨i, h⟩
    match wf? with
    | none => contextgo wf? mf words (i + 1) corrected_sentence recs
    | some wf =>
      match wf (pyLower word) with
      | .error _ => contextgo wf? mf words (i + 1) corrected_sentence recs
      | .ok freq =>
        if freq < (1 : ℚ) / 1000000 ∧ word.length > 2 then
          let masked_words := words.set i "[MASK]"
          let masked_sentence := joinSp masked_words
          match mf masked_sentence with
          | .error _ => contextgo wf? mf words (i + 1) corrected_sentence recs
          | .ok [] => contextgo wf? mf words (i + 1) corrected_sentence recs
          | .ok (best :: restP) =>
            if best.token_str.length > 1 ∧ pyIsAlphaStr best.token_str then
              let newRec : CorrectionRecord :=
                ⟨i, word, best.token_str, "context_prediction", none, none, none,
                  some best.score, some ((restP.take 2).map (fun p => p.token_str))⟩
              let words' := words.set i best.token_str
              contextgo wf? mf words' (i + 1) (joinSp words') (recs ++ [newRec])
            else contextgo wf? mf words (i + 1) corrected_sentence recs
        else contextgo wf? mf words (i + 1) corrected_sentence recs
  else (words, corrected_sentence, recs)
termination_by words.length - i
decreasing_by
  all_goals simp [List.length_set]
  all_goals omega

/-- Sentence loop of `context_based_correction`: empty (after strip) sentences
are dropped; sentences with fewer than 3 tokens pass through unexamined;
otherwise the token loop runs.  Records accumulate across sentences in order. -/
def contextSentences (wf? : Option FreqOracle) (mf : MaskOracle) :
    List String → List String × List CorrectionRecord
  | [] => ([], [])
  | sentence :: rest =>
    let s := pyStrip sentence
    if s = "" then contextSentences wf? mf rest
    else
      let words := pySplit s
      if words.length < 3 then
        let other := contextSentences wf? mf rest
        (s :: other.1, other.2)
      else
        let this := contextgo wf? mf words 0 s []
        let other := contextSentences wf? mf rest
        (this.2.1 :: other.1, this.2.2 ++ other.2)

/-- `context_based_correction(text)`: returns the input unchanged with no
records when no mask-filling model is loaded; otherwise splits on `'.'`,
corrects sentence by sentence, rejoins with `'. '`, and restores a trailing
period if the original text ended with one and the result does not.  The
stage-level `try` cannot fire on any other path: every fallible external call
inside it is already guarded by an inner handler. -/
def context_based_correction (wf? : Option FreqOracle) (mf? : Option MaskOracle)
    (text : String) : String × List CorrectionRecord :=
  match mf? with
  | none => (text, [])
  | some mf =>
    let sentences := pySplitDot text
    let result := contextSentences wf? mf sentences
    let final_text := joinDotSp result.1
    let final_text :=
      if ¬ pyEndsWith final_text '.' = true ∧ pyEndsWith text '.' = true then
        final_text ++ "."
      else final_text
    (final_text, result.2)

/-- `comprehensive_correction(raw_text)`: the aggregator.  Empty/whitespace
input fails fast.  The four stages run in fixed order; note that the pattern
stage returns only records — `current_text` is not updated from it, so the
spell stage consumes the raw input.  The body runs under a top-level
`try`/`except` which turns any uncaught stage exception (only the spell
stage's dictionary lookup can raise uncaught) into a failure result.
Confidence is `max(0, (T - C) / T)` over the raw input's token count `T`;
`methods_used = list(set(...))` is modelled as deduplication (Python's set
iteration order is unspecified). -/
def comprehensive_correction (caps : Caps) (raw_text : String) : RunResult :=
  if pyStrip raw_text = "" then .err "Empty text provided"
  else
    let pattern_corrections := analyze_ocr_errors caps.spell_checker raw_text
    match spell_check_correction caps.spell_checker raw_text with
    | .error e => .err e
    | .ok (text2, spell_corrections) =>
      let fz := fuzzy_word_correction caps.fuzzy text2
      let ctx := context_based_correction caps.wordfreq caps.mask_filler fz.1
      let all_corrections := pattern_corrections ++ spell_corrections ++ fz.2 ++ ctx.2
      let total_words := (pySplit raw_text).length
      let corrected_words := all_corrections.length
      let confidence : ℚ :=
        if total_words > 0 then
          pyMax 0 (mkRat ((total_words : Int) - (corrected_words : Int)) total_words)
        else 1
      .ok ctx.1 all_corrections confidence
        (pySetList (all_corrections.map (fun c => c.method)))

/-! ## Helper lemmas -/

/-- `pyMax` agrees with the mathematical `max`. -/
theorem pyMax_eq_max (a b : ℚ) : pyMax a b = max a b := by
  unfold pyMax
  rcases lt_or_ge a b with h | h
  · rw [if_pos h, max_eq_right h.le]
  · rw [if_neg (not_lt.mpr h), max_eq_left h]

/-- A non-empty string has a non-empty character list. -/
theorem data_ne_nil_of_ne_empty {s : String} (h : s ≠ "") : s.data ≠ [] := by
  intro hd
  apply h
  cases s with
  | mk data => cases hd; rfl

/-- `splitWsGo` with a non-empty accumulator always emits at least one token. -/
theorem splitWsGo_ne_nil : ∀ (cs acc : List Char), acc ≠ [] → splitWsGo cs acc ≠ [] := by
  intro cs
  induction cs with
  | nil => intro acc h; simp [splitWsGo, h]
  | cons c cs ih =>
    intro acc h
    by_cases hsp : pyIsSpaceChar c = true
    · have h2 : splitWsGo (c :: cs) acc = String.mk acc.reverse :: splitWsGo cs [] := by
        simp [splitWsGo, hsp, h]
      rw [h2]
      simp
    · have h2 : splitWsGo (c :: cs) acc = splitWsGo cs (c :: acc) := by
        simp [splitWsGo, hsp]
      rw [h2]
      exact ih (c :: acc) (by simp)

/-- If whitespace splitting yields no tokens, every character is whitespace. -/
theorem all_space_of_splitWsGo_nil :
    ∀ (cs : List Char), splitWsGo cs [] = [] → ∀ c ∈ cs, pyIsSpaceChar c = true := by
  intro cs
  induction cs with
  | nil => intro _ c hc; cases hc
  | cons c cs ih =>
    intro h d hd
    by_cases hsp : pyIsSpaceChar c = true
    · have h2 : splitWsGo cs [] = [] := by simpa [splitWsGo, hsp] using h
      rcases List.mem_cons.mp hd with rfl | hd2
      · exact hsp
      · exact ih h2 d hd2
    · exfalso
      have h2 : splitWsGo (c :: cs) [] = splitWsGo cs [c] := by simp [splitWsGo, hsp]
      rw [h2] at h
      exact splitWsGo_ne_nil cs [c] (by simp) h

/-- A string whose characters are all whitespace strips to empty. -/
theorem pyStrip_eq_empty_of_all_space {s : String}
    (h : ∀ c ∈ s.data, pyIsSpaceChar c = true) : pyStrip s = "" := by
  unfold pyStrip
  have h1 : s.data.dropWhile pyIsSpaceChar = [] := List.dropWhile_eq_nil_iff.mpr h
  rw [h1]
  rfl

/-- A string that does not strip to empty splits into at least one token. -/
theorem pySplit_pos {s : String} (h : pyStrip s ≠ "") : 0 < (pySplit s).length := by
  by_contra hlen
  apply h
  apply pyStrip_eq_empty_of_all_space
  apply all_space_of_splitWsGo_nil
  have : pySplit s = [] := List.eq_nil_of_length_eq_zero (by omega)
  exact this

/-- Concrete capability sets and oracles used to instantiate the theorems. -/
def dictMouse : SpellChecker := ⟨fun w => w == "mouse", fun _ => .ok []⟩

/-- A dictionary that knows no word (candidate lookup returns the empty set). -/
def dictNoWords : SpellChecker := ⟨fun _ => false, fun _ => .ok []⟩

/-- A dictionary that knows every word. -/
def dictAllWords : SpellChecker := ⟨fun _ => true, fun _ => .ok []⟩

/-- A dictionary whose candidate lookup raises. -/
def dictRaising : SpellChecker := ⟨fun _ => false, fun _ => .error "candidates failed"⟩

/-- No capability loaded. -/
def capsNoTools : Caps := ⟨none, none, none, none⟩

/-- Only the dictionary (validating the pattern stage) loaded. -/
def capsPatternOnly : Caps := ⟨some dictMouse, none, none, none⟩

/-- Dictionary loaded but its candidate lookup raises. -/
def capsRaisingDict : Caps := ⟨some dictRaising, none, none, none⟩

/-- A fuzzy matcher that always returns match `"the"` with score 86. -/
def oracleThe86 : FuzzyOracle := fun _ _ => .ok ("the", 86)

/-- A fuzzy matcher that always returns match `"the"` with score 85. -/
def oracleThe85 : FuzzyOracle := fun _ _ => .ok ("the", 85)

/-- The record the pattern stage emits for `"rnouse"` with `"mouse"` known. -/
def mouseRec : CorrectionRecord :=
  ⟨0, "rnouse", "mouse", "pattern_matching", some "rn → m", none, none, none, none⟩

/-! ## Claims -/

/-- Claim C5: for every input that is empty or whitespace-only,
`comprehensive_correction` fails fast, returning the failure indicator with
the message "Empty text provided", for every capability configuration; no
stage runs and no success fields (corrected text, corrections, confidence)
are populated — the failure constructor carries only the message.  The
function is total, so it never raises. -/
theorem c5_empty_input_fails_fast (caps : Caps) (text : String)
    (h : pyStrip text = "") :
    comprehensive_correction caps text = .err "Empty text provided" := by
  unfold comprehensive_correction
  rw [if_pos h]

/-- Witness for C5 at the whitespace-only input `"   "`. -/
theorem c5_empty_input_fails_fast_witness :
    pyStrip "   " = "" ∧
      comprehensive_correction capsNoTools "   " = .err "Empty text provided" :=
  ⟨rfl, c5_empty_input_fails_fast capsNoTools "   " rfl⟩

/-- Claim C6: a stage whose required capability is unavailable returns its
input text unchanged with zero correction records: the spell stage without a
dictionary, the fuzzy stage without the matcher, and the context stage
without the mask-filling model (for any word-frequency capability).  None of
them signals an error. -/
theorem c6_unavailable_stage_is_identity :
    (∀ text, spell_check_correction none text = .ok (text, []))
    ∧ (∀ text, fuzzy_word_correction none text = (text, []))
    ∧ (∀ (wf? : Option FreqOracle) (text : String),
        context_based_correction wf? none text = (text, [])) :=
  ⟨fun _ => rfl, fun _ => rfl, fun _ _ => rfl⟩

/-- Claim C9: `preserve_case_and_punctuation` is modelled as a total function
(it never raises); the only fallible operation in its Python body is indexing
`original_word[0]`, whose failure on the empty original is caught and returns
the bare replacement unchanged — which this theorem states. -/
theorem c9_preserve_never_raises (cand : String) :
    preserve_case_and_punctuation "" cand = cand := rfl

/-- Counterexample for claim C2: the claim's all-uppercase clause and
trailing-punctuation clause fail on the code.  `preserve_case_and_punctuation`
tests `original_word[0].isupper()` first, so an all-uppercase original such as
`"HOUSE"` takes the capitalize branch and yields `"House"`, not `"HOUSE"`;
and the helper appends every non-alphabetic character of the original (here
the inner comma of `"a,b"`), not only trailing ones. -/
theorem c2_preserve_counterexample :
    preserve_case_and_punctuation "HOUSE" "house" = "House"
    ∧ "House" ≠ "HOUSE"
    ∧ preserve_case_and_punctuation "a,b" "xyz" = "xyz,"
    ∧ "xyz," ≠ "xyz" :=
  ⟨rfl, by decide, rfl, by decide⟩

/-- Claim C2 (amended): for every non-empty original token and bare
replacement, the helper (a) capitalizes the replacement (Python
`str.capitalize`: first character up, rest down) if the original's first
character is uppercase; (b) otherwise fully uppercases it if the whole
original is uppercase (reachable only when the first character is uncased);
(c) otherwise leaves its case unchanged; and in every case appends all
non-alphabetic characters of the original, in order, at the end.
Consequently `"Teh,"` with candidate `"the"` yields `"The,"`, while
`"HOUSE"` with candidate `"house"` yields `"House"`. -/
theorem c2_preserve_case_amended (orig cand : String) (h : orig ≠ "") :
    (firstCharUpper orig = true →
      preserve_case_and_punctuation orig cand = pyCapitalize cand ++ punctOf orig)
    ∧ (firstCharUpper orig = false → pyIsUpperStr orig = true →
      preserve_case_and_punctuation orig cand = pyUpper cand ++ punctOf orig)
    ∧ (firstCharUpper orig = false → pyIsUpperStr orig = false →
      preserve_case_and_punctuation orig cand = cand ++ punctOf orig) := by
  obtain ⟨data⟩ := orig
  cases data with
  | nil => exact absurd rfl h
  | cons c cs =>
    have hfirst : firstCharUpper (String.mk (c :: cs)) = c.isUpper := rfl
    refine ⟨?_, ?_, ?_⟩
    · intro h1
      rw [hfirst] at h1
      show (if punctOf (String.mk (c :: cs)) ≠ "" then
          (if c.isUpper then pyCapitalize cand
            else if pyIsUpperStr (String.mk (c :: cs)) then pyUpper cand else cand)
            ++ punctOf (String.mk (c :: cs))
        else (if c.isUpper then pyCapitalize cand
            else if pyIsUpperStr (String.mk (c :: cs)) then pyUpper cand else cand)) = _
      rw [if_pos h1]
      split
      · rfl
      · next hp => rw [not_ne_iff.mp hp, String.append_empty]
    · intro h1 h2
      rw [hfirst] at h1
      show (if punctOf (String.mk (c :: cs)) ≠ "" then
          (if c.isUpper then pyCapitalize cand
            else if pyIsUpperStr (String.mk (c :: cs)) then pyUpper cand else cand)
            ++ punctOf (String.mk (c :: cs))
        else (if c.isUpper then pyCapitalize cand
            else if pyIsUpperStr (String.mk (c :: cs)) then pyUpper cand else cand)) = _
      have hnot1 : ¬ (c.isUpper = true) := by simp [h1]
      rw [if_neg hnot1, if_pos h2]
      split
      · rfl
      · next hp => rw [not_ne_iff.mp hp, String.append_empty]
    · intro h1 h2
      rw [hfirst] at h1
      show (if punctOf (String.mk (c :: cs)) ≠ "" then
          (if c.isUpper then pyCapitalize cand
            else if pyIsUpperStr (String.mk (c :: cs)) then pyUpper cand else cand)
            ++ punctOf (String.mk (c :: cs))
        else (if c.isUpper then pyCapitalize cand
            else if pyIsUpperStr (String.mk (c :: cs)) then pyUpper cand else cand)) = _
      have hnot1 : ¬ (c.isUpper = true) := by simp [h1]
      have hnot2 : ¬ (pyIsUpperStr (String.mk (c :: cs)) = true) := by simp [h2]
      rw [if_neg hnot1, if_neg hnot2]
      split
      · rfl
      · next hp => rw [not_ne_iff.mp hp, String.append_empty]

/-- Witness for the amended C2 at the spec's own example `"Teh,"`/`"the"`. -/
theorem c2_preserve_case_amended_witness :
    preserve_case_and_punctuation "Teh," "the" = "The," := by
  have h := (c2_preserve_case_amended "Teh," "the" (by decide)).1 (by rfl)
  rw [h]
  rfl

/-- With no dictionary loaded, the pattern loop never accepts a candidate. -/
theorem tryPatterns_none (word : String) :
    ∀ ps, tryPatterns none word ps = none := by
  intro ps
  induction ps with
  | nil => rfl
  | cons p rest ih =>
    obtain ⟨pat, rep⟩ := p
    simp only [tryPatterns]
    split
    · exact ih
    · exact ih

/-- Any candidate accepted by the pattern loop comes from a pattern pair of
the table, is validated by the dictionary, and equals the all-occurrence
replacement applied to the lower-cased token. -/
theorem tryPatterns_some (d : SpellChecker) (word : String) :
    ∀ ps nw p rep, tryPatterns (some d) word ps = some (nw, p, rep) →
      (p, rep) ∈ ps ∧ d.contains nw = true ∧
        nw = String.mk (replaceAll p.data rep.data (pyLower word).data) := by
  intro ps
  induction ps with
  | nil => intro nw p rep h; cases h
  | cons q rest ih =>
    intro nw p rep h
    obtain ⟨pat, repl⟩ := q
    simp only [tryPatterns] at h
    split at h
    · split at h
      · next hc =>
        injection h with h1
        injection h1 with e1 h2
        injection h2 with e2 e3
        subst e1; subst e2; subst e3
        exact ⟨List.mem_cons_self _ _, hc, rfl⟩
      · have := ih nw p rep h
        exact ⟨List.mem_cons_of_mem _ this.1, this.2⟩
    · have := ih nw p rep h
      exact ⟨List.mem_cons_of_mem _ this.1, this.2⟩

/-- With no dictionary, the pattern stage's token loop emits no records. -/
theorem analyzeLoop_none : ∀ (ws : List String) (i : Nat), analyzeLoop none i ws = [] := by
  intro ws
  induction ws with
  | nil => intro i; rfl
  | cons w rest ih =>
    intro i
    simp only [analyzeLoop, tryPatterns_none]
    exact ih (i + 1)

/-- Every record emitted by the pattern stage's token loop corresponds to an
accepted candidate from `tryPatterns` on some token. -/
theorem analyzeLoop_mem (d : SpellChecker) :
    ∀ (ws : List String) (i : Nat) (rec : CorrectionRecord),
      rec ∈ analyzeLoop (some d) i ws →
      ∃ w nw p rep, tryPatterns (some d) w ocr_patterns = some (nw, p, rep) ∧
        rec.original = w ∧ rec.corrected = nw ∧
        rec.pattern = some (p ++ " → " ++ rep) ∧ rec.method = "pattern_matching" := by
  intro ws
  induction ws with
  | nil => intro i rec h; cases h
  | cons w rest ih =>
    intro i rec h
    simp only [analyzeLoop] at h
    split at h
    · next nw p rep heq =>
      rcases List.mem_cons.mp h with rfl | h2
      · exact ⟨w, nw, p, rep, heq, rfl, rfl, rfl, rfl⟩
      · exact ih (i + 1) rec h2
    · exact ih (i + 1) rec h

/-- Claim C8: in the Confusion-Pattern Corrector, (1) with no dictionary the
stage produces zero records on every input; (2) every emitted record's
candidate was dictionary-validated, its `pattern` field is the string
`"<pattern> → <replacement>"` for a pair of the fixed table, and the
candidate is the pattern's replacement applied to the token (trying patterns
in the fixed order, stopping at the first validated one); (3) concretely,
token `"rnouse"` with `"mouse"` in the dictionary yields exactly one record
rewriting it to `"mouse"` with pattern field `"rn → m"`, and with a
dictionary lacking `"mouse"` no record is produced. -/
theorem c8_pattern_stage_validation :
    (∀ text, analyze_ocr_errors none text = [])
    ∧ (∀ (d : SpellChecker) (text : String) (rec : CorrectionRecord),
        rec ∈ analyze_ocr_errors (some d) text →
        ∃ p rep, (p, rep) ∈ ocr_patterns ∧ rec.pattern = some (p ++ " → " ++ rep) ∧
          d.contains rec.corrected = true ∧
          rec.corrected = String.mk (replaceAll p.data rep.data (pyLower rec.original).data))
    ∧ analyze_ocr_errors (some dictMouse) "rnouse" = [mouseRec]
    ∧ analyze_ocr_errors (some dictNoWords) "rnouse" = [] := by
  refine ⟨?_, ?_, rfl, rfl⟩
  · intro text
    exact analyzeLoop_none (pySplit text) 0
  · intro d text rec h
    obtain ⟨w, nw, p, rep, htry, horig, hcorr, hpat, _⟩ :=
      analyzeLoop_mem d (pySplit text) 0 rec h
    obtain ⟨hmem, hcont, hrepl⟩ := tryPatterns_some d w ocr_patterns nw p rep htry
    refine ⟨p, rep, hmem, hpat, ?_, ?_⟩
    · rw [hcorr]; exact hcont
    · rw [hcorr, horig]; exact hrepl

/-- Witness for C8: the general record property instantiated on the concrete
`"rnouse"`/`dictMouse` run. -/
theorem c8_pattern_stage_validation_witness :
    ∃ p rep, (p, rep) ∈ ocr_patterns ∧ mouseRec.pattern = some (p ++ " → " ++ rep) ∧
      dictMouse.contains mouseRec.corrected = true ∧
      mouseRec.corrected =
        String.mk (replaceAll p.data rep.data (pyLower mouseRec.original).data) := by
  apply c8_pattern_stage_validation.2.1 dictMouse "rnouse" mouseRec
  rw [show analyze_ocr_errors (some dictMouse) "rnouse" = [mouseRec] from rfl]
  exact List.mem_singleton.mpr rfl

/-- A successful stage loop yields one output token per input token. -/
theorem stageLoop_length
    (step : Nat → String → Except String (String × Option CorrectionRecord)) :
    ∀ (ws : List String) (k : Nat) (outs : List String) (recs : List CorrectionRecord),
      stageLoop step k ws = .ok (outs, recs) → outs.length = ws.length := by
  intro ws
  induction ws with
  | nil =>
    intro k outs recs h
    simp only [stageLoop, Except.ok.injEq, Prod.mk.injEq] at h
    rw [← h.1]
  | cons w rest ih =>
    intro k outs recs h
    simp only [stageLoop] at h
    split at h
    · cases h
    · next ow rec? heq =>
      split at h
      · cases h
      · next ws1 rs1 heq2 =>
        simp only [Except.ok.injEq, Prod.mk.injEq] at h
        rw [← h.1]
        simp [ih (k + 1) ws1 rs1 heq2]

/-- Each output token of a successful stage loop is the step function's
result on the corresponding input token, and any record the step emits there
is collected. -/
theorem stageLoop_get
    (step : Nat → String → Except String (String × Option CorrectionRecord)) :
    ∀ (ws : List String) (k : Nat) (outs : List String) (recs : List CorrectionRecord),
      stageLoop step k ws = .ok (outs, recs) →
      ∀ i (hi : i < ws.length) (ho : i < outs.length),
        ∃ rec?, step (k + i) (ws.get ⟨i, hi⟩) = .ok (outs.get ⟨i, ho⟩, rec?) ∧
          ∀ rec, rec? = some rec → rec ∈ recs := by
  intro ws
  induction ws with
  | nil => intro k outs recs h i hi; exact absurd hi (by simp)
  | cons w rest ih =>
    intro k outs recs h i hi ho
    simp only [stageLoop] at h
    split at h
    · cases h
    · next ow rec? heq =>
      split at h
      · cases h
      · next ws1 rs1 heq2 =>
        simp only [Except.ok.injEq, Prod.mk.injEq] at h
        obtain ⟨h1, h2⟩ := h
        subst h1
        subst h2
        cases i with
        | zero =>
          refine ⟨rec?, by simpa using heq, ?_⟩
          intro rec hr
          rw [hr]
          simp
        | succ j =>
          have hj : j < rest.length := by simpa using hi
          have hjo : j < ws1.length := by simpa using ho
          obtain ⟨rec2?, hstep, hmem⟩ := ih (k + 1) ws1 rs1 heq2 j hj hjo
          refine ⟨rec2?, ?_, ?_⟩
          · have hadd : k + (j + 1) = (k + 1) + j := by omega
            rw [hadd]
            exact hstep
          · intro rec hr
            exact List.mem_append_right _ (hmem rec hr)

/-- Every record collected by a successful stage loop was emitted by the step
function at its token's index. -/
theorem stageLoop_recs
    (step : Nat → String → Except String (String × Option CorrectionRecord)) :
    ∀ (ws : List String) (k : Nat) (outs : List String) (recs : List CorrectionRecord),
      stageLoop step k ws = .ok (outs, recs) →
      ∀ rec ∈ recs, ∃ (j : Nat) (hj : j < ws.length) (ho : j < outs.length),
        step (k + j) (ws.get ⟨j, hj⟩) = .ok (outs.get ⟨j, ho⟩, some rec) := by
  intro ws
  induction ws with
  | nil =>
    intro k outs recs h rec hrec
    simp only [stageLoop, Except.ok.injEq, Prod.mk.injEq] at h
    rw [← h.2] at hrec
    cases hrec
  | cons w rest ih =>
    intro k outs recs h rec hrec
    simp only [stageLoop] at h
    split at h
    · cases h
    · next ow rec? heq =>
      split at h
      · cases h
      · next ws1 rs1 heq2 =>
        simp only [Except.ok.injEq, Prod.mk.injEq] at h
        obtain ⟨h1, h2⟩ := h
        subst h1
        subst h2
        rcases List.mem_append.mp hrec with hmem | hmem
        · have hsome : rec? = some rec := by
            cases rec? with
            | none => cases hmem
            | some r => simpa using (List.mem_singleton.mp (by simpa using hmem)) ▸ rfl
          refine ⟨0, by simp, by simp, ?_⟩
          rw [Nat.add_zero]
          show step k w = .ok (ow, some rec)
          rw [← hsome]
          exact heq
        · obtain ⟨j, hj, hjo, hstep⟩ := ih (k + 1) ws1 rs1 heq2 rec hmem
          refine ⟨j + 1, by simpa using Nat.succ_lt_succ hj, by simpa using Nat.succ_lt_succ hjo, ?_⟩
          have hadd : k + (j + 1) = (k + 1) + j := by omega
          rw [hadd]
          exact hstep

/-- If the step function leaves tokens without records unchanged, a
successful stage loop that collects no records leaves all tokens unchanged. -/
theorem stageLoop_no_recs
    (step : Nat → String → Except String (String × Option CorrectionRecord))
    (hstep : ∀ i w o, step i w = .ok (o, none) → o = w) :
    ∀ (ws : List String) (k : Nat) (outs : List String),
      stageLoop step k ws = .ok (outs, []) → outs = ws := by
  intro ws
  induction ws with
  | nil =>
    intro k outs h
    simp only [stageLoop, Except.ok.injEq, Prod.mk.injEq] at h
    exact h.1.symm
  | cons w rest ih =>
    intro k outs h
    simp only [stageLoop] at h
    split at h
    · cases h
    · next ow rec? heq =>
      split at h
      · cases h
      · next ws1 rs1 heq2 =>
        simp only [Except.ok.injEq, Prod.mk.injEq] at h
        obtain ⟨h1, h2⟩ := h
        have hboth := List.append_eq_nil.mp h2
        have hnone : rec? = none := by
          cases rec? with
          | none => rfl
          | some r => simp [Option.toList] at hboth
        rw [← h1, hstep k w ow (hnone ▸ heq), ih (k + 1) ws1 (hboth.2 ▸ heq2)]

/-- Value of the fuzzy step on a checked token whose best match clears the
acceptance test. -/
theorem fuzzyStep_accept (fo : FuzzyOracle) (i : Nat) (w m : String) (s : Nat)
    (hlen : (fuzzyClean w).length > 2)
    (horacle : fo (fuzzyClean w) common_words = .ok (m, s))
    (hcond : s > 85 ∧ m ≠ fuzzyClean w) :
    fuzzyStep fo i w = .ok (preserve_case_and_punctuation w m,
      some ⟨i, w, preserve_case_and_punctuation w m, "fuzzy_matching", none, none,
        some s, none, none⟩) := by
  simp [fuzzyStep, hlen, horacle, hcond.1, hcond.2]

/-- Value of the fuzzy step on a checked token whose best match fails the
acceptance test. -/
theorem fuzzyStep_reject (fo : FuzzyOracle) (i : Nat) (w m : String) (s : Nat)
    (hlen : (fuzzyClean w).length > 2)
    (horacle : fo (fuzzyClean w) common_words = .ok (m, s))
    (hcond : ¬ (s > 85 ∧ m ≠ fuzzyClean w)) :
    fuzzyStep fo i w = .ok (w, none) := by
  simp only [fuzzyStep, horacle]
  rw [if_pos hlen, if_neg hcond]

/-- Value of the fuzzy step on a short token. -/
theorem fuzzyStep_short (fo : FuzzyOracle) (i : Nat) (w : String)
    (hlen : ¬ (fuzzyClean w).length > 2) :
    fuzzyStep fo i w = .ok (w, none) := by
  simp only [fuzzyStep]
  rw [if_neg hlen]

/-- Value of the fuzzy step when the matcher raises. -/
theorem fuzzyStep_error (fo : FuzzyOracle) (i : Nat) (w e : String)
    (hlen : (fuzzyClean w).length > 2)
    (horacle : fo (fuzzyClean w) common_words = .error e) :
    fuzzyStep fo i w = .error e := by
  simp only [fuzzyStep, horacle]
  rw [if_pos hlen]

/-- The fuzzy step leaves a token unchanged when it emits no record. -/
theorem fuzzyStep_unchanged (fo : FuzzyOracle) (i : Nat) (w o : String)
    (h : fuzzyStep fo i w = .ok (o, none)) : o = w := by
  by_cases hlen : (fuzzyClean w).length > 2
  · cases horacle : fo (fuzzyClean w) common_words with
    | error e =>
      rw [fuzzyStep_error fo i w e hlen horacle] at h
      cases h
    | ok p =>
      obtain ⟨m, s⟩ := p
      by_cases hcond : s > 85 ∧ m ≠ fuzzyClean w
      · rw [fuzzyStep_accept fo i w m s hlen horacle hcond] at h
        simp at h
      · rw [fuzzyStep_reject fo i w m s hlen horacle hcond] at h
        simp only [Except.ok.injEq, Prod.mk.injEq] at h
        exact h.1.symm
  · rw [fuzzyStep_short fo i w hlen] at h
    simp only [Except.ok.injEq, Prod.mk.injEq] at h
    exact h.1.symm

/-- Any record the fuzzy step emits carries its token index as position. -/
theorem fuzzyStep_position (fo : FuzzyOracle) (i : Nat) (w o : String)
    (rec : CorrectionRecord) (h : fuzzyStep fo i w = .ok (o, some rec)) :
    rec.position = i := by
  by_cases hlen : (fuzzyClean w).length > 2
  · cases horacle : fo (fuzzyClean w) common_words with
    | error e =>
      rw [fuzzyStep_error fo i w e hlen horacle] at h
      cases h
    | ok p =>
      obtain ⟨m, s⟩ := p
      by_cases hcond : s > 85 ∧ m ≠ fuzzyClean w
      · rw [fuzzyStep_accept fo i w m s hlen horacle hcond] at h
        simp only [Except.ok.injEq, Prod.mk.injEq, Option.some.injEq] at h
        rw [← h.2]
      · rw [fuzzyStep_reject fo i w m s hlen horacle hcond] at h
        simp at h
  · rw [fuzzyStep_short fo i w hlen] at h
    simp at h

/-- Value of the spell step on a token that is skipped (empty clean form or
already known). -/
theorem spellToken_skip (sc : SpellChecker) (i : Nat) (w : String)
    (hcond : ¬ (spellClean w ≠ "" ∧ sc.contains (spellClean w) = false)) :
    spellToken sc i w = .ok (w, none) := by
  simp only [spellToken]
  rw [if_neg hcond]

/-- Value of the spell step when the dictionary lookup raises. -/
theorem spellToken_error (sc : SpellChecker) (i : Nat) (w e : String)
    (hcond : spellClean w ≠ "" ∧ sc.contains (spellClean w) = false)
    (hcand : sc.candidates (spellClean w) = .error e) :
    spellToken sc i w = .error e := by
  simp only [spellToken, hcand]
  rw [if_pos hcond]

/-- Value of the spell step when the candidate set is empty. -/
theorem spellToken_nocand (sc : SpellChecker) (i : Nat) (w : String)
    (hcond : spellClean w ≠ "" ∧ sc.contains (spellClean w) = false)
    (hcand : sc.candidates (spellClean w) = .ok []) :
    spellToken sc i w = .ok (w, none) := by
  simp only [spellToken, hcand]
  rw [if_pos hcond]

/-- Value of the spell step when a best candidate exists. -/
theorem spellToken_correct (sc : SpellChecker) (i : Nat) (w best : String)
    (restS : List String)
    (hcond : spellClean w ≠ "" ∧ sc.contains (spellClean w) = false)
    (hcand : sc.candidates (spellClean w) = .ok (best :: restS)) :
    spellToken sc i w = .ok (preserve_case_and_punctuation w best,
      some ⟨i, w, preserve_case_and_punctuation w best, "spell_check", none,
        some ((best :: restS).take 3), none, none, none⟩) := by
  simp only [spellToken, hcand]
  rw [if_pos hcond]

/-- The spell step leaves a token unchanged when it emits no record. -/
theorem spellToken_unchanged (sc : SpellChecker) (i : Nat) (w o : String)
    (h : spellToken sc i w = .ok (o, none)) : o = w := by
  by_cases hcond : spellClean w ≠ "" ∧ sc.contains (spellClean w) = false
  · cases hcand : sc.candidates (spellClean w) with
    | error e =>
      rw [spellToken_error sc i w e hcond hcand] at h
      cases h
    | ok suggestions =>
      cases suggestions with
      | nil =>
        rw [spellToken_nocand sc i w hcond hcand] at h
        simp only [Except.ok.injEq, Prod.mk.injEq] at h
        exact h.1.symm
      | cons best restS =>
        rw [spellToken_correct sc i w best restS hcond hcand] at h
        simp at h
  · rw [spellToken_skip sc i w hcond] at h
    simp only [Except.ok.injEq, Prod.mk.injEq] at h
    exact h.1.symm

/-- Claim C7: when the fuzzy stage's token loop completes without a matcher
exception, each token is corrected exactly when its cleaned form has length
greater than 2 and the best vocabulary match scores strictly greater than 85
while differing from the cleaned form.  In particular a score of exactly 85
never triggers a correction, a score of 86 with a differing match always
does, and tokens with cleaned length at most 2 pass through unchanged with no
record at their position. -/
theorem c7_fuzzy_threshold (fo : FuzzyOracle) (text : String)
    (outs : List String) (recs : List CorrectionRecord)
    (hloop : stageLoop (fuzzyStep fo) 0 (pySplit text) = .ok (outs, recs)) :
    fuzzy_word_correction (some fo) text = (joinSp outs, recs)
    ∧ ∀ i (hi : i < (pySplit text).length) (ho : i < outs.length),
        ((fuzzyClean ((pySplit text).get ⟨i, hi⟩)).length ≤ 2 →
          outs.get ⟨i, ho⟩ = (pySplit text).get ⟨i, hi⟩ ∧
            ∀ rec ∈ recs, rec.position ≠ i)
        ∧ ∀ m s, (fuzzyClean ((pySplit text).get ⟨i, hi⟩)).length > 2 →
            fo (fuzzyClean ((pySplit text).get ⟨i, hi⟩)) common_words = .ok (m, s) →
            ((s > 85 ∧ m ≠ fuzzyClean ((pySplit text).get ⟨i, hi⟩)) →
              outs.get ⟨i, ho⟩ =
                preserve_case_and_punctuation ((pySplit text).get ⟨i, hi⟩) m ∧
              ∃ rec ∈ recs, rec.position = i ∧
                rec.original = (pySplit text).get ⟨i, hi⟩ ∧
                rec.corrected =
                  preserve_case_and_punctuation ((pySplit text).get ⟨i, hi⟩) m ∧
                rec.similarity_score = some s)
            ∧ (¬ (s > 85 ∧ m ≠ fuzzyClean ((pySplit text).get ⟨i, hi⟩)) →
              outs.get ⟨i, ho⟩ = (pySplit text).get ⟨i, hi⟩ ∧
                ∀ rec ∈ recs, rec.position ≠ i) := by
  constructor
  · simp only [fuzzy_word_correction, hloop]
  · intro i hi ho
    obtain ⟨rec?, hstep, hmem⟩ := stageLoop_get (fuzzyStep fo) (pySplit text) 0 outs recs hloop i hi ho
    rw [Nat.zero_add] at hstep
    have hno_rec_at_i : rec? = none → ∀ rec ∈ recs, rec.position ≠ i := by
      intro hnone rec hrec hpos
      obtain ⟨j, hj, hjo, hstepj⟩ :=
        stageLoop_recs (fuzzyStep fo) (pySplit text) 0 outs recs hloop rec hrec
      rw [Nat.zero_add] at hstepj
      have hji : j = i := by
        rw [← hpos]
        exact (fuzzyStep_position fo j ((pySplit text).get ⟨j, hj⟩)
          (outs.get ⟨j, hjo⟩) rec hstepj).symm
      subst hji
      rw [hstep] at hstepj
      rw [hnone] at hstepj
      simp at hstepj
    constructor
    · intro hlen
      have hval := fuzzyStep_short fo i ((pySplit text).get ⟨i, hi⟩) (by omega)
      rw [hval] at hstep
      simp only [Except.ok.injEq, Prod.mk.injEq] at hstep
      exact ⟨hstep.1.symm, hno_rec_at_i hstep.2.symm⟩
    · intro m s hlen horacle
      constructor
      · intro hcond
        have hval := fuzzyStep_accept fo i ((pySplit text).get ⟨i, hi⟩) m s hlen horacle hcond
        rw [hval] at hstep
        simp only [Except.ok.injEq, Prod.mk.injEq] at hstep
        refine ⟨hstep.1.symm, ?_⟩
        refine ⟨_, hmem _ hstep.2.symm, rfl, rfl, rfl, rfl⟩
      · intro hcond
        have hval := fuzzyStep_reject fo i ((pySplit text).get ⟨i, hi⟩) m s hlen horacle hcond
        rw [hval] at hstep
        simp only [Except.ok.injEq, Prod.mk.injEq] at hstep
        exact ⟨hstep.1.symm, hno_rec_at_i hstep.2.symm⟩

/-- Witness for C7: with a matcher scoring 86 against `"the"`, the token
`"teh"` is corrected; the conclusion is extracted by applying the theorem to
the concrete loop run. -/
theorem c7_fuzzy_threshold_witness :
    fuzzy_word_correction (some oracleThe86) "teh" =
      ("the", [⟨0, "teh", "the", "fuzzy_matching", none, none, some 86, none, none⟩]) :=
  (c7_fuzzy_threshold oracleThe86 "teh"
    ["the"] [⟨0, "teh", "the", "fuzzy_matching", none, none, some 86, none, none⟩] rfl).1

/-- Claim C10: when the spell-check stage (dictionary loaded, lookups not
raising) or the fuzzy stage (matcher loaded, loop not raising) runs to
completion, its output text is exactly the single-space join of its per-token
results over the whitespace-split input, with the token count preserved; when
the stage makes zero corrections the per-token results are the input tokens
themselves, so every whitespace run of the input is still collapsed to one
space. -/
theorem c10_stage_output_join :
    (∀ (sc : SpellChecker) (text out : String) (recs : List CorrectionRecord),
      spell_check_correction (some sc) text = .ok (out, recs) →
      ∃ outs, stageLoop (spellToken sc) 0 (pySplit text) = .ok (outs, recs) ∧
        out = joinSp outs ∧ outs.length = (pySplit text).length ∧
        (recs = [] → out = joinSp (pySplit text)))
    ∧ (∀ (fo : FuzzyOracle) (text : String) (outs : List String)
        (recs : List CorrectionRecord),
      stageLoop (fuzzyStep fo) 0 (pySplit text) = .ok (outs, recs) →
      fuzzy_word_correction (some fo) text = (joinSp outs, recs) ∧
        outs.length = (pySplit text).length ∧
        (recs = [] → joinSp outs = joinSp (pySplit text))) := by
  constructor
  · intro sc text out recs h
    simp only [spell_check_correction] at h
    cases hloop : stageLoop (spellToken sc) 0 (pySplit text) with
    | error e => rw [hloop] at h; cases h
    | ok p =>
      obtain ⟨outs, recs2⟩ := p
      rw [hloop] at h
      simp only [Except.ok.injEq, Prod.mk.injEq] at h
      obtain ⟨h1, h2⟩ := h
      subst h2
      refine ⟨outs, rfl, h1.symm, stageLoop_length _ _ _ _ _ hloop, ?_⟩
      intro hrecs
      subst hrecs
      rw [← h1, stageLoop_no_recs (spellToken sc) (spellToken_unchanged sc) _ _ _ hloop]
  · intro fo text outs recs hloop
    refine ⟨?_, stageLoop_length _ _ _ _ _ hloop, ?_⟩
    · simp only [fuzzy_word_correction, hloop]
    · intro hrecs
      subst hrecs
      rw [stageLoop_no_recs (fuzzyStep fo) (fuzzyStep_unchanged fo) _ _ _ hloop]

/-- Witness for C10: a dictionary that knows every token makes zero
corrections on `"a  b\nc"`, yet the output is the collapsed `"a b c"`. -/
theorem c10_stage_output_join_witness :
    ∃ outs, stageLoop (spellToken dictAllWords) 0 (pySplit "a  b\nc") = .ok (outs, []) ∧
      "a b c" = joinSp outs ∧ outs.length = (pySplit "a  b\nc").length ∧
      (([] : List CorrectionRecord) = [] → "a b c" = joinSp (pySplit "a  b\nc")) :=
  c10_stage_output_join.1 dictAllWords "a  b\nc" "a b c" [] rfl

/-- Claim C4: every successful run reports
`confidence = max 0 ((T - C) / T)` where `T` is the whitespace token count of
the original input (strictly positive on any successful run, so the `T = 0`
branch returning 1.0 is never exercised) and `C` is the total number of
correction records; consequently `0 ≤ confidence ≤ 1`. -/
theorem c4_confidence_formula (caps : Caps) (text ct : String)
    (recs : List CorrectionRecord) (conf : ℚ) (mu : List String)
    (h : comprehensive_correction caps text = .ok ct recs conf mu) :
    0 < (pySplit text).length
    ∧ conf = max 0 ((((pySplit text).length : ℚ) - (recs.length : ℚ)) /
        ((pySplit text).length : ℚ))
    ∧ 0 ≤ conf ∧ conf ≤ 1 := by
  by_cases hempty : pyStrip text = ""
  · simp only [comprehensive_correction, if_pos hempty] at h
    cases h
  · have hT : 0 < (pySplit text).length := pySplit_pos hempty
    simp only [comprehensive_correction, if_neg hempty] at h
    cases hspell : spell_check_correction caps.spell_checker text with
    | error e => simp only [hspell] at h; cases h
    | ok p =>
      obtain ⟨t2, sr⟩ := p
      simp only [hspell] at h
      simp only [RunResult.ok.injEq] at h
      obtain ⟨hct, hrecs, hconf, hmu⟩ := h
      have hform : conf = max 0 ((((pySplit text).length : ℚ) - (recs.length : ℚ)) /
          ((pySplit text).length : ℚ)) := by
        rw [← hconf, if_pos hT, pyMax_eq_max, Rat.mkRat_eq_div, ← hrecs]
        push_cast
        rfl
      refine ⟨hT, hform, ?_, ?_⟩
      · rw [hform]
        exact le_max_left 0 _
      · rw [hform]
        apply max_le
        · exact zero_le_one
        · apply div_le_one_of_le₀
          · have : (0 : ℚ) ≤ (recs.length : ℚ) := Nat.cast_nonneg _
            linarith
          · exact Nat.cast_nonneg _

/-- Witness for C4: the no-capability run on `"hello"` reports confidence 1,
matching the formula with one token and zero corrections. -/
theorem c4_confidence_formula_witness :
    0 < (pySplit "hello").length
    ∧ (1 : ℚ) = max 0 ((((pySplit "hello").length : ℚ) - ((([] : List CorrectionRecord)).length : ℚ)) /
        ((pySplit "hello").length : ℚ))
    ∧ (0 : ℚ) ≤ 1 ∧ (1 : ℚ) ≤ 1 :=
  c4_confidence_formula capsNoTools "hello" "hello" [] 1 [] rfl

/-- Counterexample for claim C1: with a dictionary knowing `"mouse"` (and
yielding no spell candidates) and no other capability, the pattern stage
accepts the rewrite `"rnouse" → "mouse"` — the record appears in the run's
corrections — yet the run's final `corrected_text` is still `"rnouse"`:
`analyze_ocr_errors` returns only records, and the aggregator never folds
them into `current_text`, so the accepted change is not reflected in the text
fed to the next stage or in the final output. -/
theorem c1_pattern_text_counterexample :
    comprehensive_correction capsPatternOnly "rnouse" =
      .ok "rnouse" [mouseRec] 0 ["pattern_matching"]
    ∧ mouseRec.corrected = "mouse"
    ∧ ("rnouse" : String) ≠ "mouse" :=
  ⟨rfl, rfl, by decide⟩

/-- Claim C1 (amended): the aggregator drives the four stages in fixed order,
and the spell, fuzzy and context stages each consume the previous stage's
output text — but the chain starts from the raw input, not from a
pattern-rewritten text: the pattern stage is analysis-only, its records are
prepended to the correction list while its accepted rewrites are never
applied to the text, so they are absent from the text fed to the spell stage
and from the final `corrected_text`. -/
theorem c1_pipeline_order_amended (caps : Caps) (text ct : String)
    (recs : List CorrectionRecord) (conf : ℚ) (mu : List String)
    (h : comprehensive_correction caps text = .ok ct recs conf mu) :
    ∃ (t2 t3 : String) (sr fr cr : List CorrectionRecord),
      spell_check_correction caps.spell_checker text = .ok (t2, sr)
      ∧ fuzzy_word_correction caps.fuzzy t2 = (t3, fr)
      ∧ context_based_correction caps.wordfreq caps.mask_filler t3 = (ct, cr)
      ∧ recs = analyze_ocr_errors caps.spell_checker text ++ sr ++ fr ++ cr := by
  by_cases hempty : pyStrip text = ""
  · simp only [comprehensive_correction, if_pos hempty] at h
    cases h
  · simp only [comprehensive_correction, if_neg hempty] at h
    cases hspell : spell_check_correction caps.spell_checker text with
    | error e => simp only [hspell] at h; cases h
    | ok p =>
      obtain ⟨t2, sr⟩ := p
      simp only [hspell] at h
      simp only [RunResult.ok.injEq] at h
      obtain ⟨hct, hrecs, hconf, hmu⟩ := h
      refine ⟨t2, (fuzzy_word_correction caps.fuzzy t2).1, sr,
        (fuzzy_word_correction caps.fuzzy t2).2,
        (context_based_correction caps.wordfreq caps.mask_filler
          (fuzzy_word_correction caps.fuzzy t2).1).2, rfl, rfl, ?_, ?_⟩
      · rw [← hct]
      · rw [← hrecs]

/-- Witness for the amended C1 on the concrete `"rnouse"` run. -/
theorem c1_pipeline_order_amended_witness :
    ∃ (t2 t3 : String) (sr fr cr : List CorrectionRecord),
      spell_check_correction capsPatternOnly.spell_checker "rnouse" = .ok (t2, sr)
      ∧ fuzzy_word_correction capsPatternOnly.fuzzy t2 = (t3, fr)
      ∧ context_based_correction capsPatternOnly.wordfreq capsPatternOnly.mask_filler t3
          = ("rnouse", cr)
      ∧ [mouseRec] = analyze_ocr_errors capsPatternOnly.spell_checker "rnouse"
          ++ sr ++ fr ++ cr :=
  c1_pipeline_order_amended capsPatternOnly "rnouse" "rnouse" [mouseRec] 0
    ["pattern_matching"] rfl

/-- With an always-raising frequency-independent mask model, the context
token loop changes nothing: every token is skipped by the inner handler. -/
theorem contextgo_fail (wf? : Option FreqOracle) (e : String) :
    ∀ (n : Nat) (words : List String) (i : Nat) (cs : String)
      (recs : List CorrectionRecord),
      words.length - i ≤ n →
      contextgo wf? (fun _ => Except.error e) words i cs recs = (words, cs, recs) := by
  intro n
  induction n with
  | zero =>
    intro words i cs recs hn
    rw [contextgo.eq_def, dif_neg (by omega)]
  | succ n ih =>
    intro words i cs recs hn
    rw [contextgo.eq_def]
    by_cases hi : i < words.length
    · rw [dif_pos hi]
      have hrec := ih words (i + 1) cs recs (by omega)
      cases wf? with
      | none => exact hrec
      | some wf =>
        cases hwf : wf (pyLower (words.get ⟨i, hi⟩)) with
        | error a => simp only [hwf]; exact hrec
        | ok freq =>
          by_cases hcond : freq < 1 / 1000000 ∧ (words.get ⟨i, hi⟩).length > 2
          · simp only [hwf, if_pos hcond]
            exact hrec
          · simp only [hwf, if_neg hcond]
            exact hrec
    · rw [dif_neg hi]

/-- With an always-raising mask model, the sentence loop collects no records. -/
theorem contextSentences_fail (wf? : Option FreqOracle) (e : String) :
    ∀ (sents : List String),
      (contextSentences wf? (fun _ => Except.error e) sents).2 = [] := by
  intro sents
  induction sents with
  | nil => rfl
  | cons sentence rest ih =>
    simp only [contextSentences]
    by_cases hs : pyStrip sentence = ""
    · rw [if_pos hs]
      exact ih
    · rw [if_neg hs]
      by_cases hlen : (pySplit (pyStrip sentence)).length < 3
      · rw [if_pos hlen]
        exact ih
      · rw [if_neg hlen]
        show (contextgo wf? (fun _ => Except.error e) (pySplit (pyStrip sentence)) 0
            (pyStrip sentence) []).2.2 ++
          (contextSentences wf? (fun _ => Except.error e) rest).2 = []
        rw [contextgo_fail wf? e (pySplit (pyStrip sentence)).length _ 0 _ [] (by omega)]
        simpa using ih

/-- With a constantly-raising fuzzy matcher, the token loop raises as soon as
some token is long enough to be checked. -/
theorem fuzzyFail_loop (e : String) :
    ∀ (ws : List String) (k : Nat), (∃ w ∈ ws, (fuzzyClean w).length > 2) →
      stageLoop (fuzzyStep (fun _ _ => Except.error e)) k ws = .error e := by
  intro ws
  induction ws with
  | nil =>
    intro k h
    obtain ⟨w, hw, _⟩ := h
    cases hw
  | cons w rest ih =>
    intro k h
    by_cases hlen : (fuzzyClean w).length > 2
    · have hstep : fuzzyStep (fun _ _ => Except.error e) k w = .error e :=
        fuzzyStep_error _ k w e hlen rfl
      simp only [stageLoop, hstep]
    · have hstep : fuzzyStep (fun _ _ => Except.error e) k w = .ok (w, none) :=
        fuzzyStep_short _ k w hlen
      have htrig : ∃ x ∈ rest, (fuzzyClean x).length > 2 := by
        obtain ⟨x, hx, hxl⟩ := h
        rcases List.mem_cons.mp hx with rfl | hx2
        · exact absurd hxl hlen
        · exact ⟨x, hx2, hxl⟩
      simp only [stageLoop, hstep, ih (k + 1) htrig]

/-- Counterexample for claim C3: an exception inside a single stage does
produce a full-run failure.  With a loaded dictionary whose candidate lookup
raises, the spell stage's exception propagates to the aggregator's top-level
handler, which returns the failure indicator carrying the error message —
not a degraded "no changes" result and not a minimal-but-valid success — on
the non-empty input `"abcd"`. -/
theorem c3_stage_failure_counterexample :
    pyStrip "abcd" ≠ ""
    ∧ comprehensive_correction capsRaisingDict "abcd" = .err "candidates failed" :=
  ⟨by decide, rfl⟩

/-- Claim C3 (amended): only the fuzzy and context stages swallow their own
exceptions — a raising fuzzy matcher degrades that stage to "input unchanged,
no records" (whenever some token is long enough to trigger the matcher), and
a raising mask model yields zero context records; an exception escaping the
spell stage (the pattern stage makes no fallible calls) reaches only the
aggregator's top-level handler, which never re-raises but returns a failure
indicator carrying the exception message — not a minimal-but-valid result
with the original text. -/
theorem c3_stage_failure_amended :
    (∀ (e text : String), (∃ w ∈ pySplit text, (fuzzyClean w).length > 2) →
      fuzzy_word_correction (some (fun _ _ => Except.error e)) text = (text, []))
    ∧ (∀ (wf? : Option FreqOracle) (e text : String),
      (context_based_correction wf? (some (fun _ => Except.error e)) text).2 = [])
    ∧ (∀ (caps : Caps) (text e : String), pyStrip text ≠ "" →
      spell_check_correction caps.spell_checker text = .error e →
      comprehensive_correction caps text = .err e) := by
  refine ⟨?_, ?_, ?_⟩
  · intro e text htrig
    simp only [fuzzy_word_correction, fuzzyFail_loop e (pySplit text) 0 htrig]
  · intro wf? e text
    simp only [context_based_correction]
    exact contextSentences_fail wf? e (pySplitDot text)
  · intro caps text e h1 h2
    simp only [comprehensive_correction, if_neg h1, h2]

/-- Witness for the amended C3 at concrete failing oracles. -/
theorem c3_stage_failure_amended_witness :
    fuzzy_word_correction (some (fun _ _ => Except.error "boom")) "abcd" = ("abcd", [])
    ∧ (context_based_correction none (some (fun _ => Except.error "boom")) "abcd").2 = []
    ∧ comprehensive_correction capsRaisingDict "abcd" = .err "candidates failed" :=
  ⟨c3_stage_failure_amended.1 "boom" "abcd" ⟨"abcd", by decide, by decide⟩,
   c3_stage_failure_amended.2.1 none "boom" "abcd",
   c3_stage_failure_amended.2.2 capsRaisingDict "abcd" "candidates failed" (by decide) rfl⟩
